import Mathlib

/-!
# Verification of the Simperby distributed repository engine

This file gives a shallow embedding of the distributed repository engine
found in `src/repository/src/lib.rs` (the `DistributedRepository`
orchestrator) and `src/repository/src/raw.rs` (the raw git-backed store
`CurRepository` and its concurrent wrapper `RawRepositoryImpl`), and
proves or refutes the specification claims about them.

Conventions of the embedding:

* Commit hashes (opaque 20-byte identifiers in the source) are modelled
  as `Nat`; branch and tag names are `String`s, as in the source.
* Rust `Result::Err` returns are modelled by `Flow.fail`, and Rust
  panics (`panic!`, `unwrap`, `expect`, out-of-bounds indexing) by
  `Flow.crash`.  The two are kept distinct throughout because several
  claims hinge on the difference.
* The `DistributedRepository<T>` orchestrator is generic over the
  `RawRepository` trait; its raw calls are embedded as operations on a
  `RepoState` record, faithful to the trait contracts documented in
  `raw.rs` (and, where the claims target `CurRepository` itself, to the
  concrete `CurRepository` code).
* Components that live outside `src/` (the `simperby_common` commit
  sequence verifier and the semantic commit codec of `format.rs`) are
  modelled from the spec; each such definition is marked
  `Modelled from the spec:` in its doc comment.  Opaque cryptographic
  primitives (hashes, signatures, finalization proofs) are abstract
  parameters collected in the `Crypto` record.
-/

namespace Simperby

/-- Opaque commit identifier (`CommitHash` with a 20-byte payload in
`lib.rs`); modelled as a natural number. -/
abbrev CommitHash := Nat

/-- Branch name (`pub type Branch = String` in `lib.rs`). -/
abbrev BranchName := String

/-- Tag name (`pub type Tag = String` in `lib.rs`). -/
abbrev TagName := String

/-- Opaque transaction payload (the `Transaction` of `simperby_common`,
treated as opaque by the claims). -/
abbrev Tx := Nat

/-- Opaque finalization proof (`FinalizationProof`), treated as an
opaque cryptographic witness. -/
abbrev FinalizationProof := Nat

/-- Opaque reserved state (`ReservedState` of `simperby_common`). -/
abbrev ReservedState := Nat

/-- The block header fields consulted by the code under verification:
`lib.rs` reads `.height` (fetch, create_agenda) and the commit sequence
verifier consults the previous hash and height. -/
structure BlockHeader where
  height : Nat
  prevHash : Nat
  hash : Nat
deriving DecidableEq, Repr

/-- The `Agenda` struct as built by `create_agenda` in `lib.rs`
(lines 438-443): author, timestamp, hash, height. -/
structure AgendaData where
  author : Nat
  timestamp : Nat
  hash : Nat
  height : Nat
deriving DecidableEq, Repr

/-- The semantic event variants (`Commit` of `simperby_common`, matched
on in `lib.rs`). -/
inductive Commit where
  | genesis
  | transaction (t : Tx)
  | extraAgendaTransaction (t : Tx)
  | agenda (a : AgendaData)
  | agendaProof (p : Nat)
  | block (h : BlockHeader)
deriving DecidableEq, Repr

/-- Outcome of running a fallible Rust computation: `ok` for `Ok`,
`fail` for an `Err` return, and `crash` for a panic (`panic!`,
`unwrap()`, `expect()`, or an out-of-bounds index). -/
inductive Flow (α : Type) where
  | ok (a : α)
  | fail (e : String)
  | crash (m : String)
deriving DecidableEq, Repr

/-- The repository state visible through the `RawRepository` interface
of `raw.rs`.  `commits`, `branches`, `tags`, `head` and `remotes` are
the mutable references; the remaining fields are the (immutable during
one operation) commit-graph data that the raw queries return.
`branches` is kept sorted by name, matching the order in which git (and
hence `list_branches`) enumerates local branch references. -/
structure RepoState where
  /-- Commits present in the object database (consulted by
  `find_commit` / `find_object`). -/
  commits : List CommitHash
  /-- Local branches: name-to-tip bindings, sorted by name. -/
  branches : List (BranchName × CommitHash)
  /-- Lightweight tags: name-to-commit bindings. -/
  tags : List (TagName × CommitHash)
  /-- Name of the currently checked-out branch (`repo.head().shorthand()`). -/
  head : BranchName
  /-- Configured remotes: `(name, url)` pairs. -/
  remotes : List (String × String)
  /-- First parents: `parents h` lists the parent commits of `h`. -/
  parents : CommitHash → List CommitHash
  /-- Result of `read_semantic_commit` followed by
  `format::from_semantic_commit`: the decoded semantic event of a
  commit, or a read/decoding error. -/
  semantics : CommitHash → Except String Commit
  /-- Result of `read_semantic_commit` followed by
  `serde_json::from_str::<FinalizationProof>` on the body (the `fp`
  read in `fetch`, lib.rs lines 239-241): `.error` if the semantic read
  fails, `.ok none` if the json parse fails, `.ok (some p)` otherwise. -/
  fpRead : CommitHash → Except String (Option FinalizationProof)
  /-- Result of `list_ancestors(h, None)`: the proper ancestors of `h`,
  nearest parent first (raw.rs trait contract, lines 153-161). -/
  ancestors : CommitHash → Except String (List CommitHash)
  /-- Result of `find_merge_base`. -/
  mergeBase : CommitHash → CommitHash → Except String CommitHash
  /-- The reserved state read from the finalized working tree
  (`get_reserved_state` in lib.rs). -/
  reserved : ReservedState

/-- The opaque external primitives used by the orchestrator: the
finalization-proof verifier, the agenda digest and signature checks of
the commit sequence verifier, and the wall-clock timestamp read by
`get_timestamp` in `lib.rs`. -/
structure Crypto where
  verifyFp : BlockHeader → FinalizationProof → Bool
  calcAgendaHash : Nat → List Tx → Nat
  agendaSigOk : AgendaData → Bool
  quorumOk : Nat → ReservedState → Bool
  timestamp : Nat

/-- State-passing computation with Rust-style outcomes.  The state is
returned even on `fail`/`crash`, because an aborted operation leaves
the on-disk repository in whatever intermediate state it reached. -/
def StM (α : Type) : Type := RepoState → RepoState × Flow α

/-- Sequencing for `StM`: `fail` and `crash` abort the rest of the
computation, carrying the state reached so far. -/
def andThen {α β : Type} (x : StM α) (f : α → StM β) : StM β := fun s =>
  match x s with
  | (s', Flow.ok a) => f a s'
  | (s', Flow.fail e) => (s', Flow.fail e)
  | (s', Flow.crash m) => (s', Flow.crash m)

/-- Return a value without touching the state (`Ok`). -/
def retM {α : Type} (a : α) : StM α := fun s => (s, Flow.ok a)

/-- Abort with a Rust `Err` return. -/
def failM {α : Type} (e : String) : StM α := fun s => (s, Flow.fail e)

/-- Abort with a Rust panic. -/
def crashM {α : Type} (m : String) : StM α := fun s => (s, Flow.crash m)

/-- Lift an `Except` (a pure fallible query) into `StM`. -/
def liftE {α : Type} (x : Except String α) : StM α := fun s =>
  (s, match x with
      | Except.ok a => Flow.ok a
      | Except.error e => Flow.fail e)

/-! ## Raw repository operations (`raw.rs`) -/

/-- Tip of a branch, if the branch exists. -/
def lookupBr (s : RepoState) (b : BranchName) : Option CommitHash :=
  (s.branches.find? (fun p => p.1 == b)).map Prod.snd

/-- Commit a tag points to, if the tag exists. -/
def lookupTag (s : RepoState) (t : TagName) : Option CommitHash :=
  (s.tags.find? (fun p => p.1 == t)).map Prod.snd

/-- `list_branches` (raw.rs lines 249-265): the local branch names, in
the (sorted) order git enumerates them; `RepoState.branches` is kept in
that order. -/
def listBranches (s : RepoState) : List BranchName :=
  s.branches.map Prod.fst

/-- `locate_branch` (raw.rs lines 289-301): tip of the branch, failing
if the branch does not exist. -/
def locateBranch (b : BranchName) : StM CommitHash := fun s =>
  match lookupBr s b with
  | some h => (s, Flow.ok h)
  | none => (s, Flow.fail ("cannot find branch " ++ b))

/-- The pure part of `delete_branch`: remove the binding. -/
def delBranchState (s : RepoState) (b : BranchName) : RepoState :=
  { s with branches := s.branches.filter (fun p => !(p.1 == b)) }

/-- `delete_branch` (raw.rs lines 351-371): fails if the branch does
not exist or is the currently checked-out branch. -/
def deleteBranch (b : BranchName) : StM Unit := fun s =>
  match lookupBr s b with
  | none => (s, Flow.fail ("cannot find branch " ++ b))
  | some _ =>
    if s.head == b then
      (s, Flow.fail "Given branch is currently checkout branch")
    else
      (delBranchState s b, Flow.ok ())

/-- The pure part of `move_branch`: repoint the binding. -/
def moveBranchState (s : RepoState) (b : BranchName) (h : CommitHash) : RepoState :=
  { s with branches := s.branches.map (fun p => if p.1 == b then (p.1, h) else p) }

/-- `move_branch` (raw.rs lines 333-348): fails if the branch does not
exist; the `set_target` error itself is discarded by the source, so the
retarget is modelled as always succeeding once the branch is found. -/
def moveBranch (b : BranchName) (h : CommitHash) : StM Unit := fun s =>
  match lookupBr s b with
  | none => (s, Flow.fail ("cannot find branch " ++ b))
  | some _ => (moveBranchState s b h, Flow.ok ())

/-- `create_branch` (raw.rs lines 268-286): `find_commit` fails if the
commit is unknown, and `repo.branch(..., force = false)` fails if a
branch of that name already exists. -/
def createBranch (b : BranchName) (h : CommitHash) : StM Unit := fun s =>
  if s.commits.contains h then
    if (s.branches.map Prod.fst).contains b then
      (s, Flow.fail ("a branch named " ++ b ++ " already exists"))
    else
      ({ s with branches := s.branches ++ [(b, h)] }, Flow.ok ())
  else
    (s, Flow.fail "object not found")

/-- `create_tag` (raw.rs lines 395-425): `find_object` fails if the
commit is unknown, and `tag_lightweight(..., force = true)` silently
replaces an existing tag of the same name. -/
def createTag (t : TagName) (h : CommitHash) : StM Unit := fun s =>
  if s.commits.contains h then
    ({ s with tags := (t, h) :: s.tags.filter (fun p => !(p.1 == t)) }, Flow.ok ())
  else
    (s, Flow.fail "object not found")

/-- `read_semantic_commit` followed by `format::from_semantic_commit`
(both called with `?` in `lib.rs`): the decoded event of a commit. -/
def readSem (h : CommitHash) : StM Commit := fun s =>
  (s, match s.semantics h with
      | Except.ok c => Flow.ok c
      | Except.error e => Flow.fail e)

/-- `list_ancestors(h, max)` as used by the orchestrator, per the
`RawRepository` trait contract (raw.rs lines 153-161): the proper
ancestors nearest parent first, capped at `max` entries when a limit is
given.  (The `CurRepository` implementation diverges from this
contract; that divergence is the subject of `listAncestorsRaw` below.) -/
def listAncestorsM (h : CommitHash) (mx : Option Nat) : StM (List CommitHash) := fun s =>
  (s, match s.ancestors h with
      | Except.ok l => Flow.ok (match mx with
          | some n => l.take n
          | none => l)
      | Except.error e => Flow.fail e)

/-- `find_merge_base` (raw.rs lines 757-772). -/
def mergeBaseM (a b : CommitHash) : StM CommitHash := fun s =>
  (s, match s.mergeBase a b with
      | Except.ok h => Flow.ok h
      | Except.error e => Flow.fail e)

/-- `add_remote` (raw.rs lines 779-787): `repo.remote` fails if a
remote of that name already exists. -/
def addRemote (n u : String) : StM Unit := fun s =>
  if (s.remotes.map Prod.fst).contains n then
    (s, Flow.fail ("remote " ++ n ++ " already exists"))
  else
    ({ s with remotes := s.remotes ++ [(n, u)] }, Flow.ok ())

/-- `fetch_all` per the trait contract (raw.rs line 193): fetching
updates remote-tracking references only, so the local branch state is
unchanged.  (`CurRepository`'s own `fetch_all` body is an
`unimplemented!()` stub.) -/
def fetchAll : StM Unit := retM ()

/-- `checkout_clean` (trait contract, raw.rs lines 128-130): discards
unstaged and untracked working-tree content; no effect on refs. -/
def checkoutClean : StM Unit := retM ()

/-- `checkout` (raw.rs lines 576-592): fails if the branch reference
cannot be resolved, otherwise makes it the current HEAD branch. -/
def checkoutM (b : BranchName) : StM Unit := fun s =>
  match lookupBr s b with
  | some _ => ({ s with head := b }, Flow.ok ())
  | none => (s, Flow.fail ("cannot resolve branch " ++ b))

/-- A commit id not yet present in the object database, used when a new
commit is created. -/
def freshHash (s : RepoState) : CommitHash :=
  s.commits.foldr max 0 + 1

/-- `create_semantic_commit` per the trait contract (raw.rs lines
113-115, "creates a semantic commit from the currently checked out
branch"): a new commit whose parent is the tip of the HEAD branch; the
HEAD branch advances to it, and the new commit decodes to the given
event. -/
def createSemanticCommit (c : Commit) : StM CommitHash := fun s =>
  match lookupBr s s.head with
  | none => (s, Flow.fail "HEAD branch not found")
  | some tip =>
    let h := freshHash s
    ({ s with
        commits := s.commits ++ [h]
        branches := s.branches.map (fun p => if p.1 == s.head then (p.1, h) else p)
        parents := fun x => if x == h then [tip] else s.parents x
        semantics := fun x => if x == h then Except.ok c else s.semantics x
        fpRead := fun x => if x == h then Except.ok none else s.fpRead x
        ancestors := fun x =>
          if x == h then
            match s.ancestors tip with
            | Except.ok l => Except.ok (tip :: l)
            | Except.error e => Except.error e
          else s.ancestors x },
     Flow.ok h)

/-- `get_reserved_state` (lib.rs lines 84-86). -/
def getReserved : StM ReservedState := fun s => (s, Flow.ok s.reserved)

/-! Sanity checks of the basic operations on a tiny concrete state. -/

/-- A tiny state for sanity checks only. -/
def tinyState : RepoState where
  commits := [0, 1]
  branches := [("finalized", 0), ("work", 1)]
  tags := [("vote", 0)]
  head := "work"
  remotes := []
  parents := fun x => if x == 1 then [0] else []
  semantics := fun _ => Except.error "no"
  fpRead := fun _ => Except.error "no"
  ancestors := fun x => if x == 1 then Except.ok [0] else Except.ok []
  mergeBase := fun _ _ => Except.ok 0
  reserved := 0

example : lookupBr tinyState "work" = some 1 := rfl
example : (deleteBranch "finalized" tinyState).2 = Flow.ok () := rfl
example : (deleteBranch "work" tinyState).2 =
    Flow.fail "Given branch is currently checkout branch" := rfl
example : lookupBr (deleteBranch "finalized" tinyState).1 "finalized" = none := rfl
example : (createBranch "work" 0 tinyState).2 =
    Flow.fail "a branch named work already exists" := rfl
example : lookupTag (createTag "vote" 1 tinyState).1 "vote" = some 1 := rfl

/-! ## Lookup lemmas for the branch map -/

theorem find_filter_ne (l : List (BranchName × CommitHash)) (b x : BranchName) :
    (l.filter (fun p => !(p.1 == b))).find? (fun p => p.1 == x)
      = if x = b then none else l.find? (fun p => p.1 == x) := by
  induction l with
  | nil => simp
  | cons a tl ih =>
    cases hab : (a.1 == b) with
    | true =>
      have hab' : a.1 = b := eq_of_beq hab
      have hdrop : ¬ ((fun p => !(p.1 == b)) a = true) := by simp [hab]
      rw [@List.filter_cons_of_neg _ (fun p => !(p.1 == b)) a tl hdrop, ih]
      by_cases hax : x = b
      · simp [hax]
      · have hne : ¬ ((fun p => (p.1 == x)) a = true) := by
          simp
          exact fun hc => hax (hc ▸ hab')
        rw [@List.find?_cons_of_neg _ (fun p => (p.1 == x)) a tl hne]
    | false =>
      have hkeep : ((fun p => !(p.1 == b)) a = true) := by simp [hab]
      rw [@List.filter_cons_of_pos _ (fun p => !(p.1 == b)) a tl hkeep]
      cases hax : (a.1 == x) with
      | true =>
        have hax' : a.1 = x := eq_of_beq hax
        have hxb : ¬ x = b := fun hc => (ne_of_beq_false hab) (hax'.trans hc)
        rw [@List.find?_cons_of_pos _ (fun p => (p.1 == x)) a
            (tl.filter (fun p => !(p.1 == b))) hax,
          @List.find?_cons_of_pos _ (fun p => (p.1 == x)) a tl hax]
        simp [hxb]
      | false =>
        have hne : ¬ ((fun p => (p.1 == x)) a = true) := by simp [hax]
        rw [@List.find?_cons_of_neg _ (fun p => (p.1 == x)) a
            (tl.filter (fun p => !(p.1 == b))) hne,
          @List.find?_cons_of_neg _ (fun p => (p.1 == x)) a tl hne, ih]

/-- Deleting a branch removes exactly that binding. -/
theorem lookupBr_del (s : RepoState) (b x : BranchName) :
    lookupBr (delBranchState s b) x
      = if x = b then none else lookupBr s x := by
  simp only [lookupBr, delBranchState, find_filter_ne]
  by_cases h : x = b <;> simp [h]

theorem find_move (l : List (BranchName × CommitHash)) (b x : BranchName) (h : CommitHash) :
    ((l.map (fun p => if p.1 == b then (p.1, h) else p)).find? (fun p => p.1 == x)).map Prod.snd
      = if x = b then (if (l.find? (fun p => p.1 == b)).isSome then some h else none)
        else (l.find? (fun p => p.1 == x)).map Prod.snd := by
  induction l with
  | nil => simp
  | cons a tl ih =>
    cases hab : (a.1 == b) with
    | true =>
      have hab' : a.1 = b := eq_of_beq hab
      have hmap : (a :: tl).map (fun p => if p.1 == b then (p.1, h) else p)
          = (a.1, h) :: tl.map (fun p => if p.1 == b then (p.1, h) else p) := by
        rw [List.map_cons]
        simp [hab]
      rw [hmap]
      by_cases hax : x = b
      · have hx : ((fun p => (p.1 == x)) ((a.1, h) : BranchName × CommitHash)) = true := by
          simp [hab', hax]
        rw [@List.find?_cons_of_pos _ (fun p => (p.1 == x)) ((a.1, h))
            (tl.map (fun p => if p.1 == b then (p.1, h) else p)) hx,
          @List.find?_cons_of_pos _ (fun p => (p.1 == b)) a tl hab]
        simp [hax]
      · have hne : ¬ ((fun p => (p.1 == x)) ((a.1, h) : BranchName × CommitHash)) = true := by
          simp
          exact fun hc => hax (hc ▸ hab')
        have hne' : ¬ ((fun p => (p.1 == x)) a) = true := hne
        rw [@List.find?_cons_of_neg _ (fun p => (p.1 == x)) ((a.1, h))
            (tl.map (fun p => if p.1 == b then (p.1, h) else p)) hne,
          @List.find?_cons_of_neg _ (fun p => (p.1 == x)) a tl hne', ih]
        simp [hax]
    | false =>
      have hab' : a.1 ≠ b := ne_of_beq_false hab
      have hmap : (a :: tl).map (fun p => if p.1 == b then (p.1, h) else p)
          = a :: tl.map (fun p => if p.1 == b then (p.1, h) else p) := by
        rw [List.map_cons]
        simp [hab]
      rw [hmap]
      cases hax : (a.1 == x) with
      | true =>
        have hax' : a.1 = x := eq_of_beq hax
        have hxb : ¬ x = b := fun hc => hab' (hax'.trans hc)
        rw [@List.find?_cons_of_pos _ (fun p => (p.1 == x)) a
            (tl.map (fun p => if p.1 == b then (p.1, h) else p)) hax,
          @List.find?_cons_of_pos _ (fun p => (p.1 == x)) a tl hax]
        simp [hxb]
      | false =>
        have hne : ¬ ((fun p => (p.1 == x)) a) = true := by simp [hax]
        rw [@List.find?_cons_of_neg _ (fun p => (p.1 == x)) a
            (tl.map (fun p => if p.1 == b then (p.1, h) else p)) hne,
          @List.find?_cons_of_neg _ (fun p => (p.1 == x)) a tl hne, ih]
        by_cases hxb : x = b
        · rw [@List.find?_cons_of_neg _ (fun p => (p.1 == b)) a tl (by simp [hab])]
        · simp [hxb]

/-- Moving a branch that exists repoints it. -/
theorem lookupBr_move_self (s : RepoState) (b : BranchName) (h : CommitHash)
    (hpres : (lookupBr s b).isSome) :
    lookupBr (moveBranchState s b h) b = some h := by
  simp only [lookupBr, moveBranchState, find_move, if_pos rfl]
  simp only [lookupBr] at hpres
  cases hq : s.branches.find? (fun p => p.1 == b) with
  | none =>
    rw [hq] at hpres
    simp at hpres
  | some a =>
    simp

/-- Moving one branch leaves every other branch untouched. -/
theorem lookupBr_move_other (s : RepoState) (b x : BranchName) (h : CommitHash)
    (hx : x ≠ b) :
    lookupBr (moveBranchState s b h) x = lookupBr s x := by
  simp only [lookupBr, moveBranchState, find_move]
  simp [hx]

/-- Success case of `deleteBranch`. -/
theorem deleteBranch_ok (s : RepoState) (b : BranchName)
    (hpres : (lookupBr s b).isSome) (hhead : b ≠ s.head) :
    deleteBranch b s = (delBranchState s b, Flow.ok ()) := by
  obtain ⟨h, hh⟩ := Option.isSome_iff_exists.mp hpres
  have : (s.head == b) = false := by
    simp [beq_eq_false_iff_ne]
    exact fun hc => hhead hc.symm
  simp [deleteBranch, hh, this]

/-- Success case of `moveBranch`. -/
theorem moveBranch_ok (s : RepoState) (b : BranchName) (h : CommitHash)
    (hpres : (lookupBr s b).isSome) :
    moveBranch b h s = (moveBranchState s b h, Flow.ok ()) := by
  obtain ⟨h0, hh⟩ := Option.isSome_iff_exists.mp hpres
  simp [moveBranch, hh]

/-! ## Commit sequence verifier

Modelled from the spec: the `CommitSequenceVerifier` of the
`simperby_common` crate is called by `lib.rs` (`verify::CommitSequenceVerifier`)
but its source is not under `src/`; the state machine below follows
spec section 4.4 verbatim.  Opaque checks (agenda digest, signatures,
quorum) are taken from the `Crypto` record. -/

/-- Modelled from the spec: the phase of the commit-sequence state
machine (spec 4.4).  `blockAwaiting` is entered only transiently; a
successful `Block` application resets to `transactions`. -/
inductive Phase where
  | transactions
  | extraAgenda
  | agendaOpen
  | agendaApproved
deriving DecidableEq, Repr

/-- Modelled from the spec: the verifier state
`(last_header, reserved_state, phase)` plus the transactions collected
in the current run (needed for the agenda digest check). -/
structure CSVState where
  header : BlockHeader
  reserved : ReservedState
  phase : Phase
  txs : List Tx
deriving DecidableEq, Repr

/-- Modelled from the spec: `CommitSequenceVerifier::new(last_header,
reserved_state)` starts in the `Transactions` phase (spec 4.4). -/
def csvNew (h : BlockHeader) (rs : ReservedState) : CSVState :=
  { header := h, reserved := rs, phase := Phase.transactions, txs := [] }

/-- Modelled from the spec: `apply_commit` — the transition table of
spec 4.4.  Any pairing not in the table is rejected as a phase
violation. -/
def csvApply (cr : Crypto) (s : CSVState) (c : Commit) : Except String CSVState :=
  match c with
  | Commit.transaction t =>
    match s.phase with
    | Phase.transactions => Except.ok { s with txs := s.txs ++ [t] }
    | _ => Except.error "PhaseViolation"
  | Commit.extraAgendaTransaction _ =>
    match s.phase with
    | Phase.transactions => Except.ok { s with phase := Phase.extraAgenda }
    | Phase.extraAgenda => Except.ok s
    | _ => Except.error "PhaseViolation"
  | Commit.agenda a =>
    match s.phase with
    | Phase.transactions | Phase.extraAgenda =>
      if a.height = s.header.height + 1
          && a.hash == cr.calcAgendaHash (s.header.height + 1) s.txs
          && cr.agendaSigOk a then
        Except.ok { s with phase := Phase.agendaOpen }
      else
        Except.error "invalid agenda"
    | _ => Except.error "PhaseViolation"
  | Commit.agendaProof p =>
    match s.phase with
    | Phase.agendaOpen =>
      if cr.quorumOk p s.reserved then
        Except.ok { s with phase := Phase.agendaApproved }
      else
        Except.error "quorum not met"
    | _ => Except.error "PhaseViolation"
  | Commit.block h =>
    match s.phase with
    | Phase.agendaApproved =>
      if h.prevHash == s.header.hash && h.height = s.header.height + 1 then
        Except.ok { header := h, reserved := s.reserved,
                    phase := Phase.transactions, txs := [] }
      else
        Except.error "invalid block header"
    | _ => Except.error "PhaseViolation"
  | Commit.genesis => Except.error "PhaseViolation"

/-! ## Concurrent wrapper (`RawRepositoryImpl`, raw.rs lines 860-1291)

Every method of `RawRepositoryImpl` has the identical shape

```
let mut lock = self.inner.lock().await;
let inner = lock.take().expect("RawRepoImpl invariant violated");
let (result, inner) = tokio::task::spawn_blocking(move || (inner.op(...), inner))
    .await.unwrap();
lock.replace(inner);
result
```

i.e. take the handle out of the `Mutex<Option<_>>` (panicking if it is
absent), run the synchronous operation on a worker — the closure
returns the handle alongside the result whether the operation succeeded
or returned an error — and put the handle back.  The wrapper is
embedded generically: the state is `Option H` (the lock's content) and
an operation is any total function `H → ρ × H` (a run-to-completion
call: a result, success or error, plus the handle). -/

/-- One wrapper call (the take / run / replace pattern above): panics
when the lock's handle is missing, otherwise runs the operation and
returns the handle. -/
def cwStep {H ρ : Type} (op : H → ρ × H) : Option H → Flow ρ × Option H
  | none => (Flow.crash "RawRepoImpl invariant violated", none)
  | some h => (Flow.ok (op h).1, some (op h).2)

/-- A sequential series of wrapper calls, threading the lock state and
collecting each call's outcome. -/
def cwRun {H ρ : Type} (ops : List (H → ρ × H)) (st : Option H) :
    List (Flow ρ) × Option H :=
  match ops with
  | [] => ([], st)
  | op :: rest =>
    let r := cwStep op st
    let rs := cwRun rest r.2
    (r.1 :: rs.1, rs.2)

/-! ## `CurRepository::list_ancestors` (raw.rs lines 675-737)

The synchronous implementation: a revwalk from the given commit yields
`oids` (the commit itself first, then the walked ancestry); the code
drops the first element, then
* with `max = Some(num_max)` it indexes `oids[n]` for `n in 0..num_max`
  checking each visited commit for more than one parent, and returns
  `oids[0..num_max]`;
* with `max = None` it walks `oids[i]` from `i = 0`, failing on a
  commit with more than one parent and stopping at a parentless (root)
  commit.
Rust slice indexing out of range panics; that is the `Flow.crash`
branches below. -/

/-- The `Some(num_max)` loop of `list_ancestors`: check the first
`num_max` visited commits, panicking when the index runs past the end
of the ancestor list. -/
def laMaxLoop (parents : CommitHash → List CommitHash) :
    Nat → List CommitHash → Flow Unit
  | 0, _ => Flow.ok ()
  | _ + 1, [] => Flow.crash "index out of bounds"
  | n + 1, c :: rest =>
    if (parents c).length > 1 then
      Flow.fail "There exists a merge commit"
    else
      laMaxLoop parents n rest

/-- The `None` loop of `list_ancestors`: walk until a parentless commit
is found, failing on a merge commit and panicking if the list is
exhausted before a root is seen. -/
def laAllLoop (parents : CommitHash → List CommitHash) :
    List CommitHash → Flow Unit
  | [] => Flow.crash "index out of bounds"
  | c :: rest =>
    if (parents c).length > 1 then
      Flow.fail "There exists a merge commit"
    else if (parents c).length = 0 then
      Flow.ok ()
    else
      laAllLoop parents rest

/-- `CurRepository::list_ancestors` itself: `oids` is the revwalk
output (the pushed commit first, then its ancestry in walk order);
`parents` gives each commit's parent list. -/
def listAncestorsRaw (parents : CommitHash → List CommitHash)
    (oids : List CommitHash) (mx : Option Nat) : Flow (List CommitHash) :=
  let tl := oids.drop 1
  match mx with
  | some numMax =>
    match laMaxLoop parents numMax tl with
    | Flow.ok _ => Flow.ok (tl.take numMax)
    | Flow.fail e => Flow.fail e
    | Flow.crash m => Flow.crash m
  | none =>
    match laAllLoop parents tl with
    | Flow.ok _ => Flow.ok tl
    | Flow.fail e => Flow.fail e
    | Flow.crash m => Flow.crash m

/-- Modelled from the spec: the contract of `list_ancestors` as stated
in the raw.rs trait documentation and spec section 4.1 — the linear
ancestry nearest parent first, capped at (`succeeding even when the
limit exceeds the number of ancestors`) `max` entries.  Used only as
the comparison point for the implementation above. -/
def listAncestorsContract (oids : List CommitHash) (mx : Option Nat) :
    List CommitHash :=
  match mx with
  | some numMax => (oids.drop 1).take numMax
  | none => oids.drop 1

example : listAncestorsRaw (fun n => if n = 1 then [0] else []) [1, 0] (some 1)
    = Flow.ok [0] := rfl
example : listAncestorsRaw (fun n => if n = 1 then [0] else []) [1, 0] none
    = Flow.ok [0] := rfl

/-! ## The distributed repository orchestrator (`lib.rs`) -/

/-- `get_last_finalized_block_header` (lib.rs lines 70-81): locate the
`finalized` branch, decode its tip, and require a `Block` event. -/
def getLastFinalizedHeader : StM BlockHeader :=
  andThen (locateBranch "finalized") fun commitHash =>
  andThen (readSem commitHash) fun c =>
  match c with
  | Commit.block blockHeader => retM blockHeader
  | _ => failM "repository integrity broken; finalized branch is not on a block"

/-- The per-commit verification loop of `fetch` (lib.rs lines 216-222):
each new commit is read and decoded (`?`, so an `Err` return), then
applied to the branch verifier with `.unwrap()` (so a verification
error is a panic). -/
def csvFoldCrash (cr : Crypto) (v : CSVState) : List CommitHash → StM CSVState
  | [] => retM v
  | h :: rest =>
    andThen (readSem h) fun c =>
    match csvApply cr v c with
    | Except.ok v' => csvFoldCrash cr v' rest
    | Except.error _ => crashM "called Result::unwrap on an Err value"

/-- Candidate accumulators of `fetch`: `block_header_vec` and
`finalized_branches` (lib.rs lines 166-167). -/
structure FetchAcc where
  headers : List BlockHeader
  branches : List BranchName
deriving DecidableEq, Repr

/-- The `Commit::Block` arm of the per-branch dispatch (lib.rs lines
235-258): read the `fp` branch body as a `FinalizationProof`
(`serde_json::from_str(...).unwrap()` — a parse failure panics), then
run `verify_finalization_proof(block_header_vec.get(0).unwrap(), fp)`
— note the verified header is the *first previously recorded
candidate's* header and the `get(0)` panics when no candidate has been
recorded yet.  On `Ok` the header and the branch name are pushed onto
the accumulators; on `Err` a `b-#` branch is created at the tip. -/
def handleBlockTip (cr : Crypto) (acc : FetchAcc) (branch : BranchName)
    (tipCommitHash : CommitHash) (commitBlockHeader : BlockHeader) : StM FetchAcc :=
  andThen (locateBranch "fp") fun fpCommitHash =>
  andThen (fun s => (s,
    match s.fpRead fpCommitHash with
    | Except.error e => Flow.fail e
    | Except.ok none => Flow.crash "called Result::unwrap on an Err value"
    | Except.ok (some p) => Flow.ok p)) fun finalizationProof =>
  match acc.headers.head? with
  | none => crashM "called Option::unwrap on a None value"
  | some firstHeader =>
    if cr.verifyFp firstHeader finalizationProof then
      retM { headers := acc.headers ++ [commitBlockHeader],
             branches := acc.branches ++ [branch] }
    else
      andThen (createBranch "b-#" tipCommitHash) fun _ => retM acc

/-- One iteration of the per-branch loop of `fetch` (lib.rs lines
170-264).  The loop body:
* locate the branch and the `finalized` branch; delete the branch and
  continue when its merge base with `finalized` is not the finalized
  tip (lines 176-185);
* build a fresh verifier from the finalized header and reserved state
  (lines 188-192; the `new(..).unwrap()` cannot fail per spec 4.4);
* read and decode the branch tip (lines 195-197, `?`);
* compute `new_commits_hashes` as the ancestors of the branch tip not
  among the ancestors of the finalized tip — nearest parent first, and
  *excluding* the branch tip itself (lines 199-208);
* `tip_commit_hash = new_commits_hashes.last().unwrap()` (line 211 —
  panics when there are no new commits) and decode it (lines 212-214);
* run the verifier over every new commit (lines 216-222);
* dispatch on the decoded event (lines 224-263). -/
def processBranch (cr : Crypto) (acc : FetchAcc) (branch : BranchName) : StM FetchAcc :=
  andThen (locateBranch branch) fun branchCommitHash =>
  andThen (locateBranch "finalized") fun finalizedCommitHash =>
  andThen (mergeBaseM branchCommitHash finalizedCommitHash) fun mb =>
  if mb ≠ finalizedCommitHash then
    andThen (deleteBranch branch) fun _ => retM acc
  else
    andThen getLastFinalizedHeader fun blockheader =>
    andThen getReserved fun branchReservedState =>
    let branchCsv := csvNew blockheader branchReservedState
    andThen (readSem branchCommitHash) fun _branchCommit =>
    andThen (listAncestorsM branchCommitHash none) fun branchAncestors =>
    andThen (listAncestorsM finalizedCommitHash none) fun finalizedAncestors =>
    let newCommitsHashes :=
      branchAncestors.filter (fun h => !(finalizedAncestors.contains h))
    match newCommitsHashes.getLast? with
    | none => crashM "called Option::unwrap on a None value"
    | some tipCommitHash =>
      andThen (readSem tipCommitHash) fun tipCommit =>
      andThen (csvFoldCrash cr branchCsv newCommitsHashes) fun _ =>
      match tipCommit with
      | Commit.agenda _ =>
        andThen (createBranch "a-#" tipCommitHash) fun _ => retM acc
      | Commit.agendaProof _ =>
        andThen (createBranch "a-#" tipCommitHash) fun _ => retM acc
      | Commit.block commitBlockHeader =>
        handleBlockTip cr acc branch tipCommitHash commitBlockHeader
      | _ =>
        andThen (moveBranch branch tipCommitHash) fun _ => retM acc

/-- The whole per-branch loop, folded over the branch list snapshot
taken after the fetch (lib.rs line 162). -/
def processAll (cr : Crypto) (acc : FetchAcc) : List BranchName → StM FetchAcc
  | [] => retM acc
  | b :: rest =>
    andThen (processBranch cr acc b) fun acc' => processAll cr acc' rest

/-- The enumerate loop over candidate heights (lib.rs lines 276-284):
count candidates at the maximal height, remember the (index of the)
last of them, and delete the branch of every lower candidate.  The
pairs are `finalized_branches` zipped with `block_heights`; the
recorded survivor is carried as a branch name, which is what the index
is later used to look up. -/
def cullLoop (hmax : Nat) :
    List (BranchName × Nat) → Nat → Option BranchName → StM (Nat × Option BranchName)
  | [], cnt, surv => retM (cnt, surv)
  | (b, h) :: rest, cnt, surv =>
    if h == hmax then
      cullLoop hmax rest (cnt + 1) (some b)
    else
      andThen (deleteBranch b) fun _ => cullLoop hmax rest cnt surv

/-- The candidate-resolution tail of `fetch` (lib.rs lines 265-299):
compute the maximal candidate height (`.max().unwrap()` — panics when
there is no candidate), delete lower candidates, `panic!("chain
forked")` when two or more candidates share the maximal height, and
otherwise move `finalized` to the surviving candidate's tip. -/
def finalizeCandidates (acc : FetchAcc) : StM Unit :=
  let blockHeights := acc.headers.map (fun h => h.height)
  match blockHeights.max? with
  | none => crashM "called Option::unwrap on a None value"
  | some highestBlockHeight =>
    andThen (cullLoop highestBlockHeight (acc.branches.zip blockHeights) 0 none)
      fun counts =>
    if counts.1 > 1 then
      crashM "chain forked"
    else
      match counts.2 with
      | none => crashM "called Option::unwrap on a None value"
      | some survivedBranchName =>
        andThen (locateBranch survivedBranchName) fun survivedTipCommit =>
        moveBranch "finalized" survivedTipCommit

/-- The remote-registration loop of `fetch` (lib.rs lines 151-158): for
every known peer, `add_remote("yoonho", "github")` (the hard-coded
placeholder names in the source). -/
def addRemotesLoop : List Nat → StM Unit
  | [] => retM ()
  | _ :: rest => andThen (addRemote "yoonho" "github") fun _ => addRemotesLoop rest

/-- `DistributedRepository::fetch` (lib.rs lines 146-300): register a
remote per peer, `fetch_all`, snapshot the branch list, run the
per-branch loop, then resolve the finalization candidates. -/
def fetch (cr : Crypto) (knownPeers : List Nat) : StM Unit :=
  andThen (addRemotesLoop knownPeers) fun _ =>
  andThen fetchAll fun _ =>
  andThen (fun s => (s, Flow.ok (listBranches s))) fun branchesAfterFetch =>
  andThen (processAll cr { headers := [], branches := [] } branchesAfterFetch)
    fun acc =>
  finalizeCandidates acc

/-! ## `create_agenda` (lib.rs lines 369-450) -/

/-- The read-and-convert step of `create_agenda` (lib.rs lines 396-412):
read each commit and convert it, mapping a conversion failure to the
"failed to convert the commit" error. -/
def readConv (h : CommitHash) : StM Commit := fun s =>
  (s, match s.semantics h with
      | Except.ok c => Flow.ok c
      | Except.error e => Flow.fail ("failed to convert the commit: " ++ e))

/-- Read and convert a list of commits in order, keeping the
`(commit, hash)` pairs (lib.rs lines 396-412; the `buffered(256)`
stream preserves order and the collect surfaces the first error). -/
def readAllConv : List CommitHash → StM (List (Commit × CommitHash))
  | [] => retM []
  | h :: rest =>
    andThen (readConv h) fun c =>
    andThen (readAllConv rest) fun cs =>
    retM ((c, h) :: cs)

/-- The verification loop of `create_agenda` (lib.rs lines 416-422):
apply each commit to the verifier, surfacing a verification failure as
an `Err` return (unlike the `unwrap` inside `fetch`). -/
def csvSeqCheck (cr : Crypto) (v : CSVState) :
    List (Commit × CommitHash) → Flow CSVState
  | [] => Flow.ok v
  | (c, _) :: rest =>
    match csvApply cr v c with
    | Except.ok v' => csvSeqCheck cr v' rest
    | Except.error e => Flow.fail ("verification error on commit: " ++ e)

/-- The transaction-phase check of `create_agenda` (lib.rs lines
425-436): every commit must be a `Transaction`; their payloads are
collected in order. -/
def txsOnly : List (Commit × CommitHash) → Flow (List Tx)
  | [] => Flow.ok []
  | (Commit.transaction t, _) :: rest =>
    match txsOnly rest with
    | Flow.ok ts => Flow.ok (t :: ts)
    | Flow.fail e => Flow.fail e
    | Flow.crash m => Flow.crash m
  | _ => Flow.fail "branch work is not in the transaction phase"

/-- `DistributedRepository::create_agenda` (lib.rs lines 369-450):
* read the last finalized header and check that `work` is rebased on
  `finalized` (lines 370-386);
* `list_ancestors(work, Some(256))` and find the position of the
  finalized commit in it — the `position(..).expect("TODO: handle the
  case where it exceeds the limit.")` panics when the finalized commit
  is not among the (up to 256) loaded ancestors (lines 389-393);
* take the commits before that position, oldest first, read and
  convert them (lines 396-412);
* run the commit-sequence verifier over them (lines 414-422);
* require every commit to be a transaction and collect the payloads
  (lines 425-436);
* build the agenda with height `last_header.height + 1` and hash
  `Agenda::calculate_hash(last_header.height + 1, &transactions)`
  (lines 438-444);
* `checkout_clean`, `checkout(work)`, `create_semantic_commit`
  (lines 446-449). -/
def create_agenda (cr : Crypto) (author : Nat) : StM CommitHash :=
  andThen getLastFinalizedHeader fun lastHeader =>
  andThen (locateBranch "work") fun workCommit =>
  andThen (locateBranch "finalized") fun lastHeaderCommit =>
  andThen (mergeBaseM lastHeaderCommit workCommit) fun mb =>
  if mb ≠ lastHeaderCommit then
    failM "branch work should be rebased on finalized"
  else
    andThen (listAncestorsM workCommit (some 256)) fun commits =>
    match List.findIdx? (fun c => c == lastHeaderCommit) commits with
    | none => crashM "TODO: handle the case where it exceeds the limit."
    | some position =>
      andThen (readAllConv ((commits.take position).reverse)) fun pairs =>
      andThen getReserved fun reservedState =>
      andThen (fun s => (s, csvSeqCheck cr (csvNew lastHeader reservedState) pairs))
        fun _ =>
      andThen (fun s => (s, txsOnly pairs)) fun transactions =>
      let agendaCommit := Commit.agenda
        { author := author
          timestamp := cr.timestamp
          hash := cr.calcAgendaHash (lastHeader.height + 1) transactions
          height := lastHeader.height + 1 }
      andThen checkoutClean fun _ =>
      andThen (checkoutM "work") fun _ =>
      createSemanticCommit agendaCommit

/-! ## Concrete states used to evaluate the claims -/

/-- Dummy opaque primitives: every proof verifies, digest and
timestamp are fixed values. -/
def cr0 : Crypto where
  verifyFp := fun _ _ => true
  calcAgendaHash := fun _ _ => 0
  agendaSigOk := fun _ => true
  quorumOk := fun _ _ => true
  timestamp := 1000

/-- A freshly initialized repository: `finalized` and `work` at the
genesis block commit 0, `fp` at its proof commit 1, nothing else. -/
def st0 : RepoState where
  commits := [0, 1]
  branches := [("finalized", 0), ("fp", 1), ("work", 0)]
  tags := []
  head := "work"
  remotes := []
  parents := fun x => if x == 1 then [0] else []
  semantics := fun x =>
    if x == 0 then Except.ok (Commit.block ⟨1, 0, 0⟩)
    else Except.error "not a semantic event"
  fpRead := fun x => if x == 1 then Except.ok (some 42) else Except.error "no fp"
  ancestors := fun x => if x == 1 then Except.ok [0] else Except.ok []
  mergeBase := fun a b => Except.ok (min a b)
  reserved := 7

example : (fetch cr0 [] st0).2 = Flow.crash "called Option::unwrap on a None value" := rfl
example : listBranches st0 = ["finalized", "fp", "work"] := rfl
example : (processBranch cr0 { headers := [], branches := [] } "finalized" st0).2
    = Flow.crash "called Option::unwrap on a None value" := rfl

/-- Primitives for the block-tip fragment evaluation: a proof verifies
exactly the height-1 header, so the height-2 header's own proof check
would fail. -/
def cr2 : Crypto where
  verifyFp := fun h _ => h.height == 1
  calcAgendaHash := fun _ _ => 0
  agendaSigOk := fun _ => true
  quorumOk := fun _ _ => true
  timestamp := 1000

/-- A state whose `fp` branch points at commit 9, whose body parses as
finalization proof 5. -/
def st2 : RepoState where
  commits := [0, 3, 9]
  branches := [("finalized", 0), ("fp", 9), ("work", 0), ("x", 3)]
  tags := []
  head := "work"
  remotes := []
  parents := fun _ => []
  semantics := fun _ => Except.error "unused"
  fpRead := fun x => if x == 9 then Except.ok (some 5) else Except.error "no fp"
  ancestors := fun _ => Except.ok []
  mergeBase := fun a b => Except.ok (min a b)
  reserved := 7

/-- The height-2 block header sitting at the tip of branch `x`. -/
def hdrB : BlockHeader := ⟨2, 0, 0⟩

/-- A height-1 block header of a previously recorded candidate. -/
def hdrA : BlockHeader := ⟨1, 0, 0⟩

example : (handleBlockTip cr2 { headers := [], branches := [] } "x" 3 hdrB st2).2
    = Flow.crash "called Option::unwrap on a None value" := rfl
example : cr2.verifyFp hdrB 5 = false := rfl
example : (handleBlockTip cr2 { headers := [hdrA], branches := ["a"] } "x" 3 hdrB st2).2
    = Flow.ok { headers := [hdrA, hdrB], branches := ["a", "x"] } := rfl

/-- A state with a non-reserved branch `a` (sorted first) whose tip
commit 7 does not decode. -/
def stX : RepoState where
  commits := [0, 1, 7]
  branches := [("a", 7), ("finalized", 0), ("fp", 1), ("work", 0)]
  tags := []
  head := "work"
  remotes := []
  parents := fun x => if x == 7 then [0] else if x == 1 then [0] else []
  semantics := fun x =>
    if x == 0 then Except.ok (Commit.block ⟨1, 0, 0⟩)
    else Except.error "boom"
  fpRead := fun x => if x == 1 then Except.ok (some 42) else Except.error "no fp"
  ancestors := fun x => if x == 7 then Except.ok [0]
    else if x == 1 then Except.ok [0] else Except.ok []
  mergeBase := fun a b => Except.ok (min a b)
  reserved := 7

example : fetch cr0 [] stX = (stX, Flow.fail "boom") := rfl
example : lookupBr (fetch cr0 [] stX).1 "a" = some 7 := rfl

/-- A `work` branch 257 commits above `finalized`: the linear chain
`0 <- 1 <- ... <- 300` with `finalized` at 0 and `work` at 300. -/
def st7 : RepoState where
  commits := List.range 301
  branches := [("finalized", 0), ("work", 300)]
  tags := []
  head := "work"
  remotes := []
  parents := fun x => if x == 0 then [] else [x - 1]
  semantics := fun x =>
    if x == 0 then Except.ok (Commit.block ⟨0, 0, 0⟩)
    else Except.ok (Commit.transaction x)
  fpRead := fun _ => Except.error "no fp"
  ancestors := fun x => Except.ok ((List.range x).reverse)
  mergeBase := fun a b => Except.ok (min a b)
  reserved := 7

set_option maxRecDepth 4000 in
example : (create_agenda cr0 5 st7).2
    = Flow.crash "TODO: handle the case where it exceeds the limit." := by decide

/-- The two-commit linear graph `0 <- 1` used to evaluate
`list_ancestors`: commit 1 has the single parent 0, commit 0 is the
root. -/
def par8 : CommitHash → List CommitHash := fun n => if n = 1 then [0] else []

example : listAncestorsRaw par8 [1, 0] (some 2) = Flow.crash "index out of bounds" := rfl
example : listAncestorsContract [1, 0] (some 2) = [0] := rfl

/-! ## Claim theorems -/

/-- C9: every wrapper operation that runs to completion (returning a
success or error result) hands the repository handle back to the lock,
so in any sequential series of wrapper calls started with the handle
present, no call ever finds the handle missing — the
"RawRepoImpl invariant violated" panic branch of `cwStep` is
unreachable — and the handle is still present at the end. -/
theorem cw_handle_never_missing {H ρ : Type} (ops : List (H → ρ × H)) (h : H) :
    (cwRun ops (some h)).2.isSome = true
    ∧ ∀ r ∈ (cwRun ops (some h)).1, r ≠ Flow.crash "RawRepoImpl invariant violated" := by
  induction ops generalizing h with
  | nil => simp [cwRun]
  | cons op rest ih =>
    simp only [cwRun, cwStep]
    refine ⟨(ih (op h).2).1, ?_⟩
    intro r hr
    rcases List.mem_cons.mp hr with h1 | h2
    · subst h1
      intro hc
      cases hc
    · exact (ih (op h).2).2 r h2

/-- A concrete series of wrapper operations on a `Nat` handle. -/
def ops9 : List (Nat → Nat × Nat) := [fun n => (n, n + 1), fun n => (n * 2, n)]

/-- C9 witness: after the concrete series `ops9`, the handle is still
present in the lock. -/
theorem cw_handle_never_missing_witness :
    (cwRun ops9 (some 0)).2.isSome = true :=
  (cw_handle_never_missing ops9 0).1

set_option linter.unusedVariables false in
/-- C10: for an existing tag name and a commit present in the object
database, `create_tag` succeeds and repoints the tag to the commit
(`tag_lightweight` is called with `force = true`, so an existing name
is silently replaced), while `create_branch` on an existing branch name
fails (`repo.branch` is called with `force = false`). -/
theorem create_tag_replaces (s : RepoState) (t : TagName) (hOld hNew : CommitHash)
    (bName : BranchName) (bTip : CommitHash)
    (htag : (t, hOld) ∈ s.tags) (hcom : hNew ∈ s.commits)
    (hbr : (bName, bTip) ∈ s.branches) :
    ((createTag t hNew s).2 = Flow.ok ()
      ∧ lookupTag (createTag t hNew s).1 t = some hNew)
    ∧ (createBranch bName hNew s).2
        = Flow.fail ("a branch named " ++ bName ++ " already exists") := by
  have hcom' : s.commits.contains hNew = true := List.elem_eq_true_of_mem hcom
  have hbn : (s.branches.map Prod.fst).contains bName = true :=
    List.elem_eq_true_of_mem (List.mem_map_of_mem Prod.fst hbr)
  have htags : (createTag t hNew s).1.tags
      = (t, hNew) :: s.tags.filter (fun p => !(p.1 == t)) := by
    simp [createTag, hcom', hcom]
  refine ⟨⟨?_, ?_⟩, ?_⟩
  · simp [createTag, hcom', hcom]
  · rw [lookupTag, htags,
      @List.find?_cons_of_pos _ (fun p => (p.1 == t)) ((t, hNew))
        (s.tags.filter (fun p => !(p.1 == t))) (by simp)]
    rfl
  · simp only [createBranch]
    rw [hcom', hbn]
    simp

/-- C10 witness: replacing the existing tag `vote` succeeds while
recreating the existing branch `finalized` fails, on `tinyState`. -/
theorem create_tag_replaces_witness :
    (("vote", (0 : CommitHash)) ∈ tinyState.tags
      ∧ tinyState.commits.contains 1 = true
      ∧ (("finalized", (0 : CommitHash)) ∈ tinyState.branches))
    ∧ (((createTag "vote" 1 tinyState).2 = Flow.ok ()
        ∧ lookupTag (createTag "vote" 1 tinyState).1 "vote" = some 1)
      ∧ (createBranch "finalized" 1 tinyState).2
          = Flow.fail ("a branch named " ++ "finalized" ++ " already exists")) :=
  ⟨⟨by decide, by decide, by decide⟩,
    create_tag_replaces tinyState "vote" 0 1 "finalized" 0
      (by decide) (by decide) (by decide)⟩

/-- C8: on the linear two-commit graph `0 <- 1`, `list_ancestors(1,
Some(2))` panics with an out-of-bounds index instead of succeeding with
the single ancestor the trait contract (`listAncestorsContract`)
prescribes; the uncapped call returns the ancestry as claimed. -/
theorem list_ancestors_max_overrun :
    listAncestorsRaw par8 [1, 0] (some 2) = Flow.crash "index out of bounds"
    ∧ listAncestorsContract [1, 0] (some 2) = [0]
    ∧ listAncestorsRaw par8 [1, 0] none = Flow.ok [0] :=
  ⟨rfl, rfl, rfl⟩

/-- C7: on `st7`, where `work` sits 300 commits above `finalized` so
the finalized commit is not among the 256 loaded ancestors,
`create_agenda` panics with the source's
`expect("TODO: handle the case where it exceeds the limit.")` instead
of returning an error. -/
theorem create_agenda_limit_overrun :
    (create_agenda cr0 5 st7).2
      = Flow.crash "TODO: handle the case where it exceeds the limit." := by
  set_option maxRecDepth 4000 in decide

/-- C5: running `fetch` with an empty peer list on the freshly
initialized repository `st0` does not complete successfully: the
per-branch loop reaches the reserved `finalized` branch, whose empty
new-commit list makes `new_commits_hashes.last().unwrap()` panic.  The
`finalized` branch is still unmoved at the moment of the panic. -/
theorem fetch_empty_peers_crashes :
    (fetch cr0 [] st0).2 = Flow.crash "called Option::unwrap on a None value"
    ∧ lookupBr (fetch cr0 [] st0).1 "finalized" = some 0 :=
  ⟨rfl, rfl⟩

/-- C4: the branch list that the per-branch loop of `fetch` folds over
is the full `list_branches` output, which on `st0` contains the three
reserved branches; processing the reserved branch `finalized` itself
reaches the per-branch machinery and panics on its empty new-commit
list. -/
theorem fetch_processes_reserved_branches :
    listBranches st0 = ["finalized", "fp", "work"]
    ∧ (processBranch cr0 { headers := [], branches := [] } "finalized" st0).2
        = Flow.crash "called Option::unwrap on a None value" :=
  ⟨rfl, rfl⟩

/-- C2: the `Block` arm of the per-branch dispatch does not verify the
tip's own header `H`.  With no previously recorded candidate it panics
on `block_header_vec.get(0).unwrap()`; with a previously recorded
candidate `hdrA` it verifies `hdrA` and records the branch as a
finalization candidate even though `verify_finalization_proof` rejects
the tip's own header `hdrB` against the `fp` proof `5`. -/
theorem fetch_block_tip_wrong_header :
    (handleBlockTip cr2 { headers := [], branches := [] } "x" 3 hdrB st2).2
      = Flow.crash "called Option::unwrap on a None value"
    ∧ cr2.verifyFp hdrB 5 = false
    ∧ st2.fpRead 9 = Except.ok (some 5)
    ∧ (handleBlockTip cr2 { headers := [hdrA], branches := ["a"] } "x" 3 hdrB st2).2
        = Flow.ok { headers := [hdrA, hdrB], branches := ["a", "x"] } :=
  ⟨rfl, rfl, rfl, rfl⟩

/-- C3 counterexample: on `stX` the non-reserved branch `a` (processed
first) has a tip that fails to decode; contrary to the claim, `fetch`
does not delete `a` and continue — it aborts the whole operation with
the decoding error, leaving `a` in place. -/
theorem fetch_decode_error_aborts_ce :
    (fetch cr0 [] stX).2 = Flow.fail "boom"
    ∧ lookupBr (fetch cr0 [] stX).1 "a" = some 7 :=
  ⟨rfl, rfl⟩

/-- Evaluation rule for `andThen` on a successful first step. -/
theorem andThen_eval {α β : Type} (x : StM α) (f : α → StM β) (s s' : RepoState)
    (a : α) (hx : x s = (s', Flow.ok a)) : andThen x f s = f a s' := by
  simp [andThen, hx]

/-- Evaluation rule for `andThen` on a failing first step. -/
theorem andThen_fail {α β : Type} (x : StM α) (f : α → StM β) (s s' : RepoState)
    (e : String) (hx : x s = (s', Flow.fail e)) :
    andThen x f s = (s', Flow.fail e) := by
  simp [andThen, hx]

/-- Evaluation rule for `andThen` on a panicking first step. -/
theorem andThen_crash {α β : Type} (x : StM α) (f : α → StM β) (s s' : RepoState)
    (m : String) (hx : x s = (s', Flow.crash m)) :
    andThen x f s = (s', Flow.crash m) := by
  simp [andThen, hx]

/-- A branch whose tip fails to decode makes its loop iteration abort
with that error without touching the repository state (in particular
without deleting the branch): the decode of the branch tip at lib.rs
lines 195-197 is propagated with `?`. -/
theorem processBranch_decode_fail (cr : Crypto) (acc : FetchAcc) (st : RepoState)
    (b : BranchName) (bh f : CommitHash) (hdr : BlockHeader) (e : String)
    (hlb : lookupBr st b = some bh)
    (hfin : lookupBr st "finalized" = some f)
    (hmb : st.mergeBase bh f = Except.ok f)
    (hsf : st.semantics f = Except.ok (Commit.block hdr))
    (hsb : st.semantics bh = Except.error e) :
    processBranch cr acc b st = (st, Flow.fail e) := by
  simp [processBranch, andThen, locateBranch, hlb, hfin, mergeBaseM, hmb,
    getLastFinalizedHeader, readSem, hsf, hsb, getReserved, retM]

/-- C3 amended: a decoding error on the tip of the first branch in the
loop's snapshot aborts the whole `fetch` with that error; the branch is
not deleted (the state is returned unchanged) and the remaining
branches are never processed.  (A CSV verification error inside a
branch is even a panic, `csvFoldCrash`.) -/
theorem fetch_decode_error_aborts (cr : Crypto) (st : RepoState)
    (b : BranchName) (bh f : CommitHash) (hdr : BlockHeader) (e : String)
    (hhead : st.branches.head? = some (b, bh))
    (hfin : lookupBr st "finalized" = some f)
    (hmb : st.mergeBase bh f = Except.ok f)
    (hsf : st.semantics f = Except.ok (Commit.block hdr))
    (hsb : st.semantics bh = Except.error e) :
    fetch cr [] st = (st, Flow.fail e) := by
  obtain ⟨tl, htl⟩ : ∃ tl, st.branches = (b, bh) :: tl := by
    cases hbr : st.branches with
    | nil =>
      rw [hbr] at hhead
      cases hhead
    | cons p tl =>
      refine ⟨tl, ?_⟩
      rw [hbr] at hhead
      simp only [List.head?_cons, Option.some.injEq] at hhead
      rw [hhead]
  have hlb : lookupBr st b = some bh := by
    rw [lookupBr, htl,
      @List.find?_cons_of_pos _ (fun p => (p.1 == b)) ((b, bh)) tl (by simp)]
    rfl
  have hpb : processBranch cr { headers := [], branches := [] } b st
      = (st, Flow.fail e) :=
    processBranch_decode_fail cr _ st b bh f hdr e hlb hfin hmb hsf hsb
  have hlist : listBranches st = b :: tl.map Prod.fst := by
    rw [listBranches, htl]
    rfl
  simp [fetch, andThen, addRemotesLoop, fetchAll, retM, hlist, processAll, hpb]

/-- C3 amended, witness: the concrete instance `stX` satisfies the
hypotheses and `fetch` aborts with the decoding error `boom`, branch
`a` untouched. -/
theorem fetch_decode_error_aborts_witness :
    (stX.branches.head? = some ("a", 7)
      ∧ lookupBr stX "finalized" = some 0
      ∧ stX.mergeBase 7 0 = Except.ok 0
      ∧ stX.semantics 0 = Except.ok (Commit.block ⟨1, 0, 0⟩)
      ∧ stX.semantics 7 = Except.error "boom")
    ∧ fetch cr0 [] stX = (stX, Flow.fail "boom") :=
  ⟨⟨rfl, rfl, rfl, rfl, rfl⟩,
    fetch_decode_error_aborts cr0 stX "a" 7 0 ⟨1, 0, 0⟩ "boom" rfl rfl rfl rfl rfl⟩

/-! ## The candidate-resolution tail of `fetch` (claim C1) -/

/-- The branch name recorded by the enumerate loop as
`survived_finalized_branch_index`: the last candidate whose height
equals the maximum (carried through the recursion like `cullLoop`
does). -/
def lastMax (hmax : Nat) : List (BranchName × Nat) → Option BranchName → Option BranchName
  | [], surv => surv
  | (b, h) :: rest, surv =>
    if h == hmax then lastMax hmax rest (some b) else lastMax hmax rest surv

theorem lastMax_of_filter_nil (hmax : Nat) (pairs : List (BranchName × Nat))
    (surv : Option BranchName)
    (hflt : pairs.filter (fun p => p.2 == hmax) = []) :
    lastMax hmax pairs surv = surv := by
  induction pairs generalizing surv with
  | nil => rfl
  | cons q rest ih =>
    obtain ⟨b, h⟩ := q
    cases hh : (h == hmax) with
    | true =>
      rw [@List.filter_cons_of_pos _ (fun p => p.2 == hmax) (b, h) rest hh] at hflt
      cases hflt
    | false =>
      rw [@List.filter_cons_of_neg _ (fun p => p.2 == hmax) (b, h) rest
        (by simp [hh])] at hflt
      simp only [lastMax, hh]
      simp only [Bool.false_eq_true, if_false]
      exact ih surv hflt

theorem lastMax_of_filter_singleton (hmax : Nat) (pairs : List (BranchName × Nat))
    (surv : Option BranchName) (sb : BranchName) (hv : Nat)
    (hflt : pairs.filter (fun p => p.2 == hmax) = [(sb, hv)]) :
    lastMax hmax pairs surv = some sb := by
  induction pairs generalizing surv with
  | nil => cases hflt
  | cons q rest ih =>
    obtain ⟨b, h⟩ := q
    cases hh : (h == hmax) with
    | true =>
      rw [@List.filter_cons_of_pos _ (fun p => p.2 == hmax) (b, h) rest hh] at hflt
      simp only [List.cons.injEq] at hflt
      obtain ⟨hq, hrest⟩ := hflt
      simp only [lastMax, hh, if_true]
      rw [lastMax_of_filter_nil hmax rest (some b) hrest]
      rw [Prod.mk.injEq] at hq
      rw [hq.1]
    | false =>
      rw [@List.filter_cons_of_neg _ (fun p => p.2 == hmax) (b, h) rest
        (by simp [hh])] at hflt
      simp only [lastMax, hh]
      simp only [Bool.false_eq_true, if_false]
      exact ih surv hflt

/-- In a list of pairs with duplicate-free keys, a key determines its
value. -/
theorem nodup_keys_eq (l : List (BranchName × Nat)) (a : BranchName) (b c : Nat)
    (hnd : (l.map Prod.fst).Nodup) (hb : (a, b) ∈ l) (hc : (a, c) ∈ l) : b = c := by
  induction l with
  | nil => cases hb
  | cons p rest ih =>
    rw [List.map_cons, List.nodup_cons] at hnd
    rcases List.mem_cons.mp hb with hb1 | hb2 <;>
      rcases List.mem_cons.mp hc with hc1 | hc2
    · rw [← hb1] at hc1
      exact (Prod.mk.injEq _ _ _ _ ▸ hc1).2.symm
    · rw [← hb1] at hnd
      exact absurd (List.mem_map_of_mem Prod.fst hc2) hnd.1
    · rw [← hc1] at hnd
      exact absurd (List.mem_map_of_mem Prod.fst hb2) hnd.1
    · exact ih hnd.2 hb2 hc2

/-- Behaviour of the enumerate loop (lib.rs lines 276-284) on
well-formed candidate pairs: it succeeds, returning the count of
maximal-height candidates (added to the running count) and the last
maximal candidate's branch, having deleted exactly the branches of the
lower-height candidates. -/
theorem cull_spec (hmax : Nat) (pairs : List (BranchName × Nat)) :
    ∀ (st : RepoState) (cnt : Nat) (surv : Option BranchName),
    (pairs.map Prod.fst).Nodup →
    (∀ q ∈ pairs, q.1 ≠ st.head ∧ (lookupBr st q.1).isSome) →
    ∃ st',
      cullLoop hmax pairs cnt surv st
        = (st', Flow.ok (cnt + (pairs.filter (fun p => p.2 == hmax)).length,
            lastMax hmax pairs surv))
      ∧ st'.head = st.head
      ∧ ∀ x, lookupBr st' x =
          if x ∈ (pairs.filter (fun p => !(p.2 == hmax))).map Prod.fst then none
          else lookupBr st x := by
  induction pairs with
  | nil =>
    intro st cnt surv _ _
    exact ⟨st, rfl, rfl, fun x => by simp⟩
  | cons q rest ih =>
    intro st cnt surv hnd hpres
    obtain ⟨b, h⟩ := q
    rw [List.map_cons, List.nodup_cons] at hnd
    cases hh : (h == hmax) with
    | true =>
      have hstep : cullLoop hmax ((b, h) :: rest) cnt surv st
          = cullLoop hmax rest (cnt + 1) (some b) st := by
        simp [cullLoop, hh]
      obtain ⟨st', heq, hhead, hlook⟩ := ih st (cnt + 1) (some b) hnd.2
        (fun q hq => hpres q (List.mem_cons_of_mem _ hq))
      refine ⟨st', ?_, hhead, ?_⟩
      · rw [hstep, heq,
          @List.filter_cons_of_pos _ (fun p => p.2 == hmax) (b, h) rest hh]
        have hcount : cnt + 1 + (rest.filter (fun p => p.2 == hmax)).length
            = cnt + ((b, h) :: rest.filter (fun p => p.2 == hmax)).length := by
          simp only [List.length_cons]
          omega
        rw [hcount]
        have hsurv : lastMax hmax rest (some b)
            = lastMax hmax ((b, h) :: rest) surv := by
          simp [lastMax, hh]
        rw [hsurv]
      · intro x
        rw [hlook x,
          @List.filter_cons_of_neg _ (fun p => !(p.2 == hmax)) (b, h) rest
            (by simp [hh])]
    | false =>
      obtain ⟨hbhead, hbpres⟩ := hpres (b, h) (List.mem_cons_self _ _)
      have hdel : deleteBranch b st = (delBranchState st b, Flow.ok ()) :=
        deleteBranch_ok st b hbpres hbhead
      have hstep : cullLoop hmax ((b, h) :: rest) cnt surv st
          = cullLoop hmax rest cnt surv (delBranchState st b) := by
        simp only [cullLoop, hh]
        simp only [Bool.false_eq_true, if_false]
        exact andThen_eval _ _ _ _ _ hdel
      have hpres' : ∀ q ∈ rest, q.1 ≠ (delBranchState st b).head
          ∧ (lookupBr (delBranchState st b) q.1).isSome := by
        intro q hq
        have hqb : q.1 ≠ b := by
          intro hc
          apply hnd.1
          rw [← hc]
          exact @List.mem_map_of_mem _ _ rest q Prod.fst hq
        obtain ⟨hq1, hq2⟩ := hpres q (List.mem_cons_of_mem _ hq)
        refine ⟨hq1, ?_⟩
        rw [lookupBr_del, if_neg hqb]
        exact hq2
      obtain ⟨st', heq, hhead, hlook⟩ := ih (delBranchState st b) cnt surv hnd.2 hpres'
      refine ⟨st', ?_, hhead, ?_⟩
      · rw [hstep, heq,
          @List.filter_cons_of_neg _ (fun p => p.2 == hmax) (b, h) rest
            (by simp [hh])]
        have hsurv : lastMax hmax rest surv = lastMax hmax ((b, h) :: rest) surv := by
          simp [lastMax, hh]
        rw [hsurv]
      · intro x
        rw [hlook x,
          @List.filter_cons_of_pos _ (fun p => !(p.2 == hmax)) (b, h) rest
            (by simp [hh]),
          List.map_cons]
        by_cases hxr : x ∈ (rest.filter (fun p => !(p.2 == hmax))).map Prod.fst
        · simp [hxr]
        · by_cases hxb : x = b
          · rw [if_neg hxr, lookupBr_del, if_pos hxb,
              if_pos (List.mem_cons.mpr (Or.inl hxb))]
          · rw [if_neg hxr, lookupBr_del, if_neg hxb, if_neg]
            intro hc
            rcases List.mem_cons.mp hc with h1 | h2
            · exact hxb h1
            · exact hxr h2

/-- The candidate pairs examined by the resolution tail: the recorded
candidate branch names zipped with their block heights (lib.rs lines
269-276). -/
def candPairs (acc : FetchAcc) : List (BranchName × Nat) :=
  acc.branches.zip (acc.headers.map (fun h => h.height))

/-- C1: resolution of the finalization candidates (lib.rs lines
265-296).  Assume the accumulated candidates are well-formed: as many
branch names as headers, duplicate-free names that exist, are not the
checked-out branch and do not include `finalized` itself, and a present
`finalized` branch; let `hmax` be the maximal candidate height.  Then
* if two or more candidates have height `hmax`, the operation aborts
  with the fatal-fork panic `chain forked` and the `finalized` branch
  is left where it was;
* if exactly one candidate has height `hmax`, the operation succeeds,
  `finalized` is moved to that candidate's tip, and the branch of every
  lower-height candidate has been deleted. -/
theorem finalize_fork_or_move (acc : FetchAcc) (st : RepoState) (hmax : Nat)
    (hlen : acc.branches.length = acc.headers.length)
    (hnd : acc.branches.Nodup)
    (hfinname : "finalized" ∉ acc.branches)
    (hpres : ∀ b ∈ acc.branches, b ≠ st.head ∧ (lookupBr st b).isSome)
    (hfinpres : (lookupBr st "finalized").isSome)
    (hmx : (acc.headers.map (fun h => h.height)).max? = some hmax) :
    (((candPairs acc).filter (fun p => p.2 == hmax)).length ≥ 2 →
      (finalizeCandidates acc st).2 = Flow.crash "chain forked"
      ∧ lookupBr (finalizeCandidates acc st).1 "finalized"
          = lookupBr st "finalized")
    ∧ (∀ (sb : BranchName) (hv : Nat),
      (candPairs acc).filter (fun p => p.2 == hmax) = [(sb, hv)] →
      (finalizeCandidates acc st).2 = Flow.ok ()
      ∧ lookupBr (finalizeCandidates acc st).1 "finalized" = lookupBr st sb
      ∧ ∀ q ∈ candPairs acc, (q.2 == hmax) = false →
          lookupBr (finalizeCandidates acc st).1 q.1 = none) := by
  have hkeys : (candPairs acc).map Prod.fst = acc.branches := by
    rw [candPairs]
    exact List.map_fst_zip _ _ (by rw [List.length_map, hlen])
  have hndp : ((candPairs acc).map Prod.fst).Nodup := by
    rw [hkeys]
    exact hnd
  have hmemb : ∀ q ∈ candPairs acc, q.1 ∈ acc.branches := by
    intro q hq
    rw [← hkeys]
    exact @List.mem_map_of_mem _ _ (candPairs acc) q Prod.fst hq
  have hpresp : ∀ q ∈ candPairs acc, q.1 ≠ st.head ∧ (lookupBr st q.1).isSome :=
    fun q hq => hpres q.1 (hmemb q hq)
  obtain ⟨st', heq, hhead, hlook⟩ :=
    cull_spec hmax (candPairs acc) st 0 none hndp hpresp
  have hlowsub : ∀ x,
      x ∈ ((candPairs acc).filter (fun p => !(p.2 == hmax))).map Prod.fst →
      x ∈ acc.branches := by
    intro x hx
    obtain ⟨q, hq, hqx⟩ := List.mem_map.mp hx
    rw [← hqx]
    exact hmemb q (List.mem_of_mem_filter hq)
  have hfinlook : lookupBr st' "finalized" = lookupBr st "finalized" := by
    rw [hlook]
    rw [if_neg]
    intro hc
    exact hfinname (hlowsub _ hc)
  have hfc : finalizeCandidates acc st
      = (if 0 + ((candPairs acc).filter (fun p => p.2 == hmax)).length > 1 then
           crashM "chain forked"
         else
           match lastMax hmax (candPairs acc) none with
           | none => crashM "called Option::unwrap on a None value"
           | some survivedBranchName =>
             andThen (locateBranch survivedBranchName) fun survivedTipCommit =>
             moveBranch "finalized" survivedTipCommit) st' := by
    simp only [finalizeCandidates, hmx]
    exact andThen_eval _ _ _ _ _ heq
  constructor
  · intro h2
    have hres : finalizeCandidates acc st = (st', Flow.crash "chain forked") := by
      rw [hfc, if_pos (by omega)]
      rfl
    rw [hres]
    exact ⟨rfl, hfinlook⟩
  · intro sb hv hfilter
    have hk : ((candPairs acc).filter (fun p => p.2 == hmax)).length = 1 := by
      rw [hfilter]
      rfl
    have hlm : lastMax hmax (candPairs acc) none = some sb :=
      lastMax_of_filter_singleton hmax (candPairs acc) none sb hv hfilter
    have hsbfil : (sb, hv) ∈ (candPairs acc).filter (fun p => p.2 == hmax) := by
      rw [hfilter]
      exact List.mem_cons_self _ _
    have hsbmem : (sb, hv) ∈ candPairs acc := List.mem_of_mem_filter hsbfil
    have hsbmax : (hv == hmax) = true := (List.mem_filter.mp hsbfil).2
    have hsbnotlow : sb ∉ ((candPairs acc).filter (fun p => !(p.2 == hmax))).map
        Prod.fst := by
      intro hc
      obtain ⟨q, hq, hqx⟩ := List.mem_map.mp hc
      have hqmem := List.mem_of_mem_filter hq
      have hqlow : (!(q.2 == hmax)) = true := (List.mem_filter.mp hq).2
      have hqpair : q = (sb, q.2) := by
        rw [Prod.mk.injEq]
        exact ⟨hqx, rfl⟩
      have := nodup_keys_eq (candPairs acc) sb hv q.2 hndp hsbmem (hqpair ▸ hqmem)
      rw [← this] at hqlow
      rw [hsbmax] at hqlow
      cases hqlow
    have hsblook : lookupBr st' sb = lookupBr st sb := by
      rw [hlook, if_neg hsbnotlow]
    obtain ⟨tip, htip⟩ :=
      Option.isSome_iff_exists.mp (hpres sb (hmemb _ hsbmem)).2
    have hloc : locateBranch sb st' = (st', Flow.ok tip) := by
      rw [locateBranch, hsblook, htip]
    have hfinpres' : (lookupBr st' "finalized").isSome := by
      rw [hfinlook]
      exact hfinpres
    have hres : finalizeCandidates acc st
        = (moveBranchState st' "finalized" tip, Flow.ok ()) := by
      rw [hfc, if_neg (by omega), hlm]
      show (andThen (locateBranch sb) fun survivedTipCommit =>
        moveBranch "finalized" survivedTipCommit) st' = _
      rw [andThen_eval _ _ _ _ _ hloc]
      exact moveBranch_ok st' "finalized" tip hfinpres'
    refine ⟨by rw [hres], ?_, ?_⟩
    · rw [hres]
      show lookupBr (moveBranchState st' "finalized" tip) "finalized"
        = lookupBr st sb
      rw [lookupBr_move_self st' "finalized" tip hfinpres', htip]
    · intro q hq hqlow
      have hqname : q.1 ∈ ((candPairs acc).filter
          (fun p => !(p.2 == hmax))).map Prod.fst := by
        apply List.mem_map_of_mem Prod.fst
        exact List.mem_filter.mpr ⟨hq, by rw [hqlow]; rfl⟩
      have hqfin : q.1 ≠ "finalized" := by
        intro hc
        exact hfinname (hc ▸ hmemb q hq)
      rw [hres]
      show lookupBr (moveBranchState st' "finalized" tip) q.1 = none
      rw [lookupBr_move_other st' "finalized" q.1 tip hqfin, hlook, if_pos hqname]

/-- A state with two candidate branches `b1` (tip 10) and `b2`
(tip 11) besides the reserved three. -/
def stC1 : RepoState where
  commits := [5, 6, 10, 11]
  branches := [("b1", 10), ("b2", 11), ("finalized", 5), ("fp", 6), ("work", 5)]
  tags := []
  head := "work"
  remotes := []
  parents := fun _ => []
  semantics := fun _ => Except.error "unused"
  fpRead := fun _ => Except.error "unused"
  ancestors := fun _ => Except.ok []
  mergeBase := fun a b => Except.ok (min a b)
  reserved := 0

/-- Two candidates, both at height 2: a fork. -/
def accF : FetchAcc := { headers := [⟨2, 0, 0⟩, ⟨2, 0, 0⟩], branches := ["b1", "b2"] }

/-- Two candidates at heights 2 and 1: a unique maximum. -/
def accU : FetchAcc := { headers := [⟨2, 0, 0⟩, ⟨1, 0, 0⟩], branches := ["b1", "b2"] }

/-- C1 witness: on `stC1`, two equal-height candidates make the
resolution tail abort with the `chain forked` panic leaving `finalized`
in place, while a unique maximal candidate moves `finalized` to its
tip and deletes the lower candidate's branch. -/
theorem finalize_fork_or_move_witness :
    (("finalized" : BranchName) ∉ accF.branches
      ∧ (lookupBr stC1 "finalized").isSome = true
      ∧ (accF.headers.map (fun h => h.height)).max? = some 2
      ∧ ((candPairs accF).filter (fun p => p.2 == 2)).length ≥ 2
      ∧ (candPairs accU).filter (fun p => p.2 == 2) = [("b1", 2)])
    ∧ ((finalizeCandidates accF stC1).2 = Flow.crash "chain forked"
      ∧ lookupBr (finalizeCandidates accF stC1).1 "finalized"
          = lookupBr stC1 "finalized")
    ∧ ((finalizeCandidates accU stC1).2 = Flow.ok ()
      ∧ lookupBr (finalizeCandidates accU stC1).1 "finalized" = lookupBr stC1 "b1"
      ∧ lookupBr (finalizeCandidates accU stC1).1 "b2" = none) :=
  ⟨⟨by decide, by decide, by decide, by decide, by decide⟩,
    (finalize_fork_or_move accF stC1 2 (by decide) (by decide) (by decide)
      (by decide) (by decide) (by decide)).1 (by decide),
    by
      obtain ⟨h1, h2, h3⟩ := (finalize_fork_or_move accU stC1 2 (by decide)
        (by decide) (by decide) (by decide) (by decide) (by decide)).2
        "b1" 2 (by decide)
      exact ⟨h1, h2, h3 ("b2", 1) (by decide) (by decide)⟩⟩

/-! ## `create_agenda` on a well-formed `work` branch (claim C6) -/

theorem le_foldr_max (l : List Nat) : ∀ x ∈ l, x ≤ l.foldr max 0 := by
  induction l with
  | nil => intro x hx; cases hx
  | cons a tl ih =>
    intro x hx
    rcases List.mem_cons.mp hx with h1 | h2
    · rw [h1]
      exact le_max_left _ _
    · exact le_trans (ih x h2) (le_max_right _ _)

/-- The hash of a newly created commit is indeed new. -/
theorem freshHash_not_mem (s : RepoState) : freshHash s ∉ s.commits := by
  intro hc
  have hle := le_foldr_max s.commits _ hc
  rw [freshHash] at hle
  omega

/-- Reading a list of commits that all decode to transactions yields
the paired list, without touching the state. -/
theorem readAllConv_ok (st : RepoState) (hashes : List CommitHash) (txs : List Tx)
    (hsem : hashes.map st.semantics
      = txs.map (fun t => Except.ok (Commit.transaction t))) :
    readAllConv hashes st
      = (st, Flow.ok (List.zipWith (fun t h => (Commit.transaction t, h)) txs hashes)) := by
  induction hashes generalizing txs with
  | nil =>
    rw [List.map_nil] at hsem
    rw [List.map_eq_nil_iff.mp hsem.symm]
    rfl
  | cons h hs ih =>
    cases txs with
    | nil => simp at hsem
    | cons t ts =>
      simp only [List.map_cons, List.cons.injEq] at hsem
      obtain ⟨h1, h2⟩ := hsem
      simp only [readAllConv]
      rw [andThen_eval _ _ _ _ _
        (show readConv h st = (st, Flow.ok (Commit.transaction t)) by
          simp [readConv, h1])]
      rw [andThen_eval _ _ _ _ _ (ih ts h2)]
      rfl

/-- The verifier accepts any sequence of transactions from the
transactions phase. -/
theorem csvSeqCheck_txs (cr : Crypto) (txs : List Tx) :
    ∀ (hashes : List CommitHash) (v : CSVState), v.phase = Phase.transactions →
    ∃ v', csvSeqCheck cr v
      (List.zipWith (fun t h => (Commit.transaction t, h)) txs hashes) = Flow.ok v' := by
  induction txs with
  | nil =>
    intro hashes v _
    exact ⟨v, rfl⟩
  | cons t ts ih =>
    intro hashes v hph
    cases hashes with
    | nil => exact ⟨v, rfl⟩
    | cons h hs =>
      obtain ⟨vh, vr, vp, vt⟩ := v
      simp only at hph
      subst hph
      simp only [List.zipWith_cons_cons, csvSeqCheck, csvApply]
      exact ih hs _ rfl

/-- The transaction-phase scan over a list of transaction commits
collects exactly the payloads, in order. -/
theorem txsOnly_zip (txs : List Tx) :
    ∀ hashes : List CommitHash, txs.length = hashes.length →
    txsOnly (List.zipWith (fun t h => (Commit.transaction t, h)) txs hashes)
      = Flow.ok txs := by
  induction txs with
  | nil => intro hashes _; rfl
  | cons t ts ih =>
    intro hashes hlen
    cases hashes with
    | nil => cases hlen
    | cons h hs =>
      simp only [List.zipWith_cons_cons, txsOnly]
      rw [ih hs (by simpa using hlen)]

/-- Success case of `create_semantic_commit`: with the HEAD branch
present, a fresh commit is created atop its tip, the branch advances,
and the new commit decodes to the given event. -/
theorem createSemanticCommit_ok (st : RepoState) (c : Commit) (tip : CommitHash)
    (hhead : lookupBr st st.head = some tip) :
    ∃ st', createSemanticCommit c st = (st', Flow.ok (freshHash st))
      ∧ st'.parents (freshHash st) = [tip]
      ∧ st'.semantics (freshHash st) = Except.ok c
      ∧ lookupBr st' st.head = some (freshHash st) := by
  rw [createSemanticCommit, hhead]
  refine ⟨_, rfl, by simp, by simp, ?_⟩
  show ((st.branches.map
    (fun p => if p.1 == st.head then (p.1, freshHash st) else p)).find?
    (fun p => p.1 == st.head)).map Prod.snd = some (freshHash st)
  rw [find_move, if_pos rfl, if_pos]
  rw [lookupBr] at hhead
  cases hq : st.branches.find? (fun p => p.1 == st.head) with
  | none =>
    rw [hq] at hhead
    cases hhead
  | some a => simp

/-- C6: when `work` is rebased on `finalized` (their merge base is the
finalized tip), the finalized commit appears among the (up to 256)
loaded ancestors of `work` at position `p`, and every commit strictly
between the finalized tip and the tip of `work` decodes to a
`Transaction`, then `create_agenda` succeeds: it creates a fresh commit
atop `work`'s tip (the `work` branch advances to it) whose decoded
event is an `Agenda` with height `last_header.height + 1` and hash
`calculate_hash(last_header.height + 1, transactions)` over the
transactions in parent-first order. -/
theorem create_agenda_spec (cr : Crypto) (st : RepoState) (author : Nat)
    (f w : CommitHash) (hdr : BlockHeader) (anc : List CommitHash) (p : Nat)
    (txs : List Tx)
    (hf : lookupBr st "finalized" = some f)
    (hsf : st.semantics f = Except.ok (Commit.block hdr))
    (hw : lookupBr st "work" = some w)
    (hmb : st.mergeBase f w = Except.ok f)
    (hanc : st.ancestors w = Except.ok anc)
    (hpos : List.findIdx? (fun c => c == f) (anc.take 256) = some p)
    (hsem : (((anc.take 256).take p).reverse).map st.semantics
        = txs.map (fun t => Except.ok (Commit.transaction t))) :
    ∃ st',
      create_agenda cr author st = (st', Flow.ok (freshHash st))
      ∧ freshHash st ∉ st.commits
      ∧ st'.parents (freshHash st) = [w]
      ∧ lookupBr st' "work" = some (freshHash st)
      ∧ st'.semantics (freshHash st) = Except.ok (Commit.agenda
          { author := author, timestamp := cr.timestamp,
            hash := cr.calcAgendaHash (hdr.height + 1) txs,
            height := hdr.height + 1 }) := by
  have hlen : txs.length = (((anc.take 256).take p).reverse).length := by
    have := congrArg List.length hsem
    simp only [List.length_map] at this
    omega
  have hglf : getLastFinalizedHeader st = (st, Flow.ok hdr) := by
    rw [getLastFinalizedHeader]
    rw [andThen_eval _ _ _ _ _
      (show locateBranch "finalized" st = (st, Flow.ok f) by
        simp [locateBranch, hf])]
    rw [andThen_eval _ _ _ _ _
      (show readSem f st = (st, Flow.ok (Commit.block hdr)) by
        simp [readSem, hsf])]
    rfl
  have hread := readAllConv_ok st (((anc.take 256).take p).reverse) txs hsem
  obtain ⟨v', hcsv⟩ := csvSeqCheck_txs cr txs (((anc.take 256).take p).reverse)
    (csvNew hdr st.reserved) rfl
  have htxs := txsOnly_zip txs (((anc.take 256).take p).reverse) hlen
  have hco : checkoutM "work" st = ({ st with head := "work" }, Flow.ok ()) := by
    simp [checkoutM, hw]
  have hw1 : lookupBr { st with head := "work" } "work" = some w := hw
  obtain ⟨st', hcsc, hpar, hsemc, hlookc⟩ :=
    createSemanticCommit_ok { st with head := "work" }
      (Commit.agenda
        { author := author, timestamp := cr.timestamp,
          hash := cr.calcAgendaHash (hdr.height + 1) txs,
          height := hdr.height + 1 }) w hw1
  refine ⟨st', ?_, freshHash_not_mem st, hpar, hlookc, hsemc⟩
  rw [create_agenda]
  rw [andThen_eval _ _ _ _ _ hglf]
  try simp only []
  rw [andThen_eval _ _ _ _ _
    (show locateBranch "work" st = (st, Flow.ok w) by simp [locateBranch, hw])]
  try simp only []
  rw [andThen_eval _ _ _ _ _
    (show locateBranch "finalized" st = (st, Flow.ok f) by
      simp [locateBranch, hf])]
  try simp only []
  rw [andThen_eval _ _ _ _ _
    (show mergeBaseM f w st = (st, Flow.ok f) by simp [mergeBaseM, hmb])]
  try simp only []
  rw [if_neg (fun hc => hc rfl)]
  rw [andThen_eval _ _ _ _ _
    (show listAncestorsM w (some 256) st = (st, Flow.ok (anc.take 256)) by
      simp [listAncestorsM, hanc])]
  try simp only []
  simp only [hpos]
  rw [andThen_eval _ _ _ _ _ hread]
  try simp only []
  rw [andThen_eval _ _ _ _ _ (show getReserved st = (st, Flow.ok st.reserved) from rfl)]
  try simp only []
  rw [andThen_eval _ _ _ _ _
    (show (fun s => (s, csvSeqCheck cr (csvNew hdr st.reserved)
        (List.zipWith (fun t h => (Commit.transaction t, h)) txs
          (((anc.take 256).take p).reverse)))) st
      = (st, Flow.ok v') by rw [hcsv])]
  try simp only []
  rw [andThen_eval _ _ _ _ _
    (show (fun s => (s, txsOnly
        (List.zipWith (fun t h => (Commit.transaction t, h)) txs
          (((anc.take 256).take p).reverse)))) st
      = (st, Flow.ok txs) by rw [htxs])]
  try simp only []
  rw [andThen_eval _ _ _ _ _
    (show checkoutClean st = (st, Flow.ok ()) from rfl)]
  rw [andThen_eval _ _ _ _ _ hco]
  exact hcsc

/-- A linear repository `0 <- 1 <- 2` with `finalized` on the block
commit 0 (height 5) and `work` two transaction commits above it. -/
def st6 : RepoState where
  commits := [0, 1, 2]
  branches := [("finalized", 0), ("work", 2)]
  tags := []
  head := "work"
  remotes := []
  parents := fun x => if x == 2 then [1] else if x == 1 then [0] else []
  semantics := fun x =>
    if x == 0 then Except.ok (Commit.block ⟨5, 0, 40⟩)
    else if x == 1 then Except.ok (Commit.transaction 10)
    else Except.ok (Commit.transaction 11)
  fpRead := fun _ => Except.error "no fp"
  ancestors := fun x =>
    if x == 2 then Except.ok [1, 0]
    else if x == 1 then Except.ok [0] else Except.ok []
  mergeBase := fun a b => Except.ok (min a b)
  reserved := 3

/-- C6 witness: on `st6`, `create_agenda` succeeds with a fresh commit
atop `work` decoding to the height-6 agenda over the collected
transactions. -/
theorem create_agenda_spec_witness :
    (lookupBr st6 "finalized" = some 0
      ∧ st6.semantics 0 = Except.ok (Commit.block ⟨5, 0, 40⟩)
      ∧ lookupBr st6 "work" = some 2
      ∧ st6.mergeBase 0 2 = Except.ok 0
      ∧ st6.ancestors 2 = Except.ok [1, 0]
      ∧ List.findIdx? (fun c => c == 0) (([1, 0] : List CommitHash).take 256) = some 1)
    ∧ ∃ st', create_agenda cr0 7 st6 = (st', Flow.ok (freshHash st6))
        ∧ freshHash st6 ∉ st6.commits
        ∧ st'.parents (freshHash st6) = [2]
        ∧ lookupBr st' "work" = some (freshHash st6)
        ∧ st'.semantics (freshHash st6) = Except.ok (Commit.agenda
            { author := 7, timestamp := cr0.timestamp,
              hash := cr0.calcAgendaHash (5 + 1) [10], height := 5 + 1 }) :=
  ⟨⟨rfl, rfl, rfl, rfl, rfl, rfl⟩,
    create_agenda_spec cr0 st6 7 0 2 ⟨5, 0, 40⟩ [1, 0] 1 [10]
      rfl rfl rfl rfl rfl rfl rfl⟩

end Simperby
